import Mathlib

/-!
Shallow embedding of the portfolio analytics engine of the repository
(`portfolio_engine.py`, `core/returns.py`, `core/metrics.py`, `core/var.py`,
`core/risk_contrib.py`, `core/etf_analysis.py`, `pages/risk_lab.py`).

Modelling conventions:
* pandas float values are modelled as exact rationals (`ℚ`) where the source
  only uses field arithmetic, and as real numbers (`ℝ`) where the source
  takes square roots or real powers;
* a pandas `NaN` produced by an aggregation over too few observations is
  modelled as `Option.none`;
* a Python `raise ValueError(msg)` is modelled as `Except.error msg`;
* a `DataFrame` of prices is modelled as a list of rows `(date, row)` with
  `date : ℕ` (an ordinal day index) and `row : List ℚ` (one entry per asset
  column, no missing values inside a row);
* division by zero in `ℚ`/`ℝ` is the junk value `0`; every theorem below that
  depends on a quotient carries the non-vanishing hypotheses of the source's
  actual inputs.
-/

/-! ### Generic list helpers (pandas `cumprod`, `cummax`, row differencing) -/

/-- Helper for running scans: `scan1Aux op a xs` is the list of partial
`op`-folds of `a :: xs`, mirroring pandas `cumprod`/`cummax` (no initial
accumulator row). -/
def scan1Aux {α : Type} (op : α → α → α) : α → List α → List α
  | a, [] => [a]
  | a, x :: xs => a :: scan1Aux op (op a x) xs

/-- Running scan of a binary operation over a list, first element kept as is:
the shape of pandas `Series.cumprod` and `Series.cummax`. -/
def scan1 {α : Type} (op : α → α → α) : List α → List α
  | [] => []
  | x :: xs => scan1Aux op x xs

/-- pandas `Series.cumprod`. -/
def cumprod {α : Type} [Mul α] (xs : List α) : List α :=
  scan1 (· * ·) xs

/-- pandas `Series.cummax`. -/
def cummax {α : Type} [LinearOrder α] (xs : List α) : List α :=
  scan1 max xs

/-- Minimum of a series, as pandas `Series.min` on a non-empty series
(junk value `0` on the empty list, which the callers below rule out). -/
def listMin {α : Type} [LinearOrder α] [Zero α] : List α → α
  | [] => 0
  | x :: xs => xs.foldl min x

/-- One row of pandas `DataFrame.pct_change`: elementwise
`(curr - prev) / prev` of two consecutive rows. -/
def pctRow (prev curr : List ℚ) : List ℚ :=
  List.zipWith (fun p c => (c - p) / p) prev curr

/-- One row of elementwise price relatives `curr / prev`; used to restate the
value curve of `compute_portfolio_value` as a product of gross returns. -/
def ratioRow (prev curr : List ℚ) : List ℚ :=
  List.zipWith (fun p c => c / p) prev curr

/-- `DataFrame.pct_change().dropna(how="all")` on a table without missing
values: one differenced row per consecutive pair of rows, the first (all-NaN)
row dropped.  Undated variant, used by `compute_portfolio_value`. -/
def pctTable : List (List ℚ) → List (List ℚ)
  | [] => []
  | [_] => []
  | p :: c :: rest => pctRow p c :: pctTable (c :: rest)

/-- Table of rows of price relatives `p[t][i] / p[t-1][i]` (one row per
consecutive pair), the gross-return form of `pctTable`. -/
def ratioTable : List (List ℚ) → List (List ℚ)
  | [] => []
  | [_] => []
  | p :: c :: rest => ratioRow p c :: ratioTable (c :: rest)

/-- Dated `DataFrame.pct_change().dropna(how="all")`: each produced row keeps
the date of the later of the two rows it differences. -/
def pctChangeRows : List (ℕ × List ℚ) → List (ℕ × List ℚ)
  | [] => []
  | [_] => []
  | (_, p) :: (d, c) :: rest => (d, pctRow p c) :: pctChangeRows ((d, c) :: rest)

/-! ### `core/returns.py` -/

/-- Message of the `ValueError` raised by `compute_returns` on an empty price
dataframe. -/
def emptyPricesMsg : String := "Price dataframe is empty; cannot compute returns."

/-- Message of the `ValueError` raised by `compute_returns` on an unrecognized
frequency. -/
def badFrequencyMsg : String := "Frequency must be daily or weekly."

/-- `prices.resample("W").last()`: keep, inside every run of rows falling in
the same week (`date / 7`), only the last row.  Assumes the date index is
sorted, as a pandas `DatetimeIndex` of downloaded prices is. -/
def resampleWeeklyLast : List (ℕ × List ℚ) → List (ℕ × List ℚ)
  | [] => []
  | [r] => [r]
  | r1 :: r2 :: rest =>
    if r1.1 / 7 = r2.1 / 7 then resampleWeeklyLast (r2 :: rest)
    else r1 :: resampleWeeklyLast (r2 :: rest)

/-- `core/returns.py` `compute_returns`: raises on an empty dataframe, raises
on a frequency other than `"daily"`/`"weekly"`, otherwise optionally resamples
to weekly and returns the percentage changes. -/
def compute_returns (prices : List (ℕ × List ℚ)) (frequency : String) :
    Except String (List (ℕ × List ℚ)) :=
  if prices.length = 0 then Except.error emptyPricesMsg
  else if ¬ (frequency = "daily" ∨ frequency = "weekly") then Except.error badFrequencyMsg
  else Except.ok (pctChangeRows
    (if frequency = "weekly" then resampleWeeklyLast prices else prices))

/-- `core/returns.py` `cumulative_returns` on a series:
`(1 + returns).cumprod()`. -/
def cumulative_returns (returns : List ℚ) : List ℚ :=
  cumprod (returns.map (fun r => 1 + r))

/-! ### `portfolio_engine.py` -/

/-- Row-wise weighted sum `(returns * weights).sum(axis=1)` with the weight
series already aligned to the columns. -/
def dot (w r : List ℚ) : ℚ :=
  (List.zipWith (· * ·) w r).sum

/-- `portfolio_engine.py` `compute_portfolio_value`: percentage returns of the
price table, row-wise weighted sum, then `(1 + r).cumprod()`. -/
def compute_portfolio_value (prices : List (List ℚ)) (weights : List ℚ) : List ℚ :=
  cumprod ((pctTable prices).map (fun r => 1 + dot weights r))

/-- `portfolio_engine.py` `backtest_portfolio`, weight construction step:
`allocation_df.set_index("Ticker")["Allocation (%)"] / 100` — each allocation
percentage is divided by 100, with no validation or renormalization. -/
def backtestWeights (alloc : List (String × ℚ)) : List (String × ℚ) :=
  alloc.map (fun r => (r.1, r.2 / 100))

/-- Modelled from the spec (§4.7 step 5) and the words of the claim, for
comparison with `compute_portfolio_value`: the buy-and-hold portfolio value at
time `t`, the weighted sum of each asset's price rebased to `1.0` at its first
observation, `Σ_i w_i · p_i[t] / p_i[0]`. -/
def specRebasedValue (prices : List (List ℚ)) (weights : List ℚ) (t : ℕ) : ℚ :=
  dot weights (List.zipWith (fun p0 pt => pt / p0) (prices.getD 0 []) (prices.getD t []))

/-! ### `core/var.py` -/

/-- pandas `Series.mean`: sum divided by length (junk `0` on the empty list,
where pandas yields `NaN`; every use below is over a provably non-empty
list). -/
def listMean (xs : List ℚ) : ℚ :=
  xs.sum / xs.length

/-- The values of a series sorted ascending, as pandas does before taking a
quantile. -/
def sortedOf (xs : List ℚ) : List ℚ :=
  xs.insertionSort (· ≤ ·)

/-- The fractional sorted-array position `alpha * (n - 1)` at which pandas
`Series.quantile` reads off the quantile. -/
def quantilePos (xs : List ℚ) (alpha : ℚ) : ℚ :=
  alpha * (((sortedOf xs).length : ℚ) - 1)

/-- pandas `Series.quantile(alpha)` with the default linear interpolation:
sort the values, let `h = alpha * (n - 1)`, and interpolate between the
entries at positions `⌊h⌋` and `⌊h⌋ + 1` (no interpolation when position
`⌊h⌋ + 1` does not exist). -/
def quantile (xs : List ℚ) (alpha : ℚ) : ℚ :=
  match (sortedOf xs).get? ((Int.floor (quantilePos xs alpha)).toNat + 1) with
  | some y =>
    (sortedOf xs).getD (Int.floor (quantilePos xs alpha)).toNat 0 +
      (quantilePos xs alpha - Int.floor (quantilePos xs alpha)) *
        (y - (sortedOf xs).getD (Int.floor (quantilePos xs alpha)).toNat 0)
  | none => (sortedOf xs).getD (Int.floor (quantilePos xs alpha)).toNat 0

/-- Message of the `ValueError` raised by `historical_var` and
`performance_metrics` on an empty return series. -/
def emptySeriesMsg : String := "Portfolio return series is empty."

/-- `core/var.py` `historical_var`: raises on an empty series, otherwise
returns `(-quantile, -mean of the returns at or below the quantile)`. -/
def historical_var (portfolio_ret : List ℚ) (alpha : ℚ) : Except String (ℚ × ℚ) :=
  if portfolio_ret.length = 0 then Except.error emptySeriesMsg
  else
    let var_level := quantile portfolio_ret alpha
    let tail := portfolio_ret.filter (fun x => decide (x ≤ var_level))
    Except.ok (-var_level, -(listMean tail))

/-! ### `core/metrics.py` -/

/-- pandas `Series.mean` over real values (junk `0` on the empty list; only
used on provably non-empty lists). -/
noncomputable def sampleMeanR (xs : List ℝ) : ℝ :=
  xs.sum / xs.length

/-- pandas `Series.std()` (sample standard deviation, `ddof=1`):
`NaN` — modelled as `none` — on fewer than two observations, else
`sqrt (Σ (x - mean)² / (n - 1))`. -/
noncomputable def sampleStd (xs : List ℝ) : Option ℝ :=
  if xs.length < 2 then none
  else some (Real.sqrt ((xs.map (fun x => (x - sampleMeanR xs) ^ 2)).sum /
    ((xs.length : ℝ) - 1)))

/-- The record returned by `performance_metrics`; `annualVolatility` is an
`Option` because `float(series.std() * sqrt(py))` is `NaN` on a one-point
series. -/
structure MetricsReport where
  cagr : ℝ
  annualVolatility : Option ℝ
  sharpe : ℝ
  sortino : ℝ
  maxDrawdown : ℝ

/-- `performance_metrics`, CAGR line:
`(1 + cumulative) ** (periods_per_year / len(ret)) - 1` with
`cumulative = prod(1 + r) - 1`; Python float `**` is real `rpow`. -/
noncomputable def cagrOf (ret : List ℝ) (periods_per_year : ℕ) : ℝ :=
  (1 + ((ret.map (fun r => 1 + r)).prod - 1)) ^
    ((periods_per_year : ℝ) / (ret.length : ℝ)) - 1

/-- `performance_metrics`, volatility line: `ret.std() * sqrt(py)` (`NaN`
stays `NaN`). -/
noncomputable def annualVolOf (ret : List ℝ) (periods_per_year : ℕ) : Option ℝ :=
  (sampleStd ret).map (fun s => s * Real.sqrt periods_per_year)

/-- `performance_metrics`, downside line: `ret[ret < 0].std() * sqrt(py)`. -/
noncomputable def downsideVolOf (ret : List ℝ) (periods_per_year : ℕ) : Option ℝ :=
  (sampleStd (ret.filter (fun x => decide (x < 0)))).map
    (fun s => s * Real.sqrt periods_per_year)

/-- `excess / d if d > 0 else 0.0`, where `d` may be `NaN` (`none`); a Python
comparison with `NaN` is `False`, so the guard rejects it. -/
noncomputable def guardedRatio (excess : ℝ) : Option ℝ → ℝ
  | some v => if 0 < v then excess / v else 0
  | none => 0

/-- `performance_metrics` / `drawdown_curve` drawdown series:
`(1 + r).cumprod() / (1 + r).cumprod().cummax() - 1`. -/
noncomputable def drawdownOf (ret : List ℝ) : List ℝ :=
  List.zipWith (fun c m => c / m - 1) (cumprod (ret.map (fun r => 1 + r)))
    (cummax (cumprod (ret.map (fun r => 1 + r))))

/-- `core/metrics.py` `performance_metrics`: raises on an empty series, else
returns CAGR, annualized volatility, Sharpe, Sortino and max drawdown. -/
noncomputable def performance_metrics (portfolio_ret : List ℝ) (risk_free_rate : ℝ)
    (periods_per_year : ℕ) : Except String MetricsReport :=
  if portfolio_ret.length = 0 then Except.error emptySeriesMsg
  else Except.ok
    { cagr := cagrOf portfolio_ret periods_per_year
      annualVolatility := annualVolOf portfolio_ret periods_per_year
      sharpe := guardedRatio (cagrOf portfolio_ret periods_per_year - risk_free_rate)
        (annualVolOf portfolio_ret periods_per_year)
      sortino := guardedRatio (cagrOf portfolio_ret periods_per_year - risk_free_rate)
        (downsideVolOf portfolio_ret periods_per_year)
      maxDrawdown := listMin (drawdownOf portfolio_ret) }

/-! ### `core/risk_contrib.py` -/

/-- `float(aligned_weights.T @ cov_matrix @ aligned_weights)`: the quadratic
form `wᵀ Σ w`, with the weights already aligned to the covariance index. -/
noncomputable def portfolioVariance {n : ℕ} (w : Fin n → ℝ) (cov : Fin n → Fin n → ℝ) : ℝ :=
  ∑ i, w i * ∑ j, cov i j * w j

/-- `volatility_contributions`, absolute contribution column: all zeros when
`wᵀ Σ w ≤ 0`, else `wᵢ · (Σ w)ᵢ / sqrt(wᵀ Σ w)`. -/
noncomputable def absContribution {n : ℕ} (w : Fin n → ℝ) (cov : Fin n → Fin n → ℝ) :
    Fin n → ℝ :=
  if portfolioVariance w cov ≤ 0 then fun _ => 0
  else fun i => w i * (∑ j, cov i j * w j) / Real.sqrt (portfolioVariance w cov)

/-- `volatility_contributions`, percentage column:
`contribution / contribution.sum()` when the sum is non-zero, else the (zero)
contribution column itself. -/
noncomputable def pctContribution {n : ℕ} (w : Fin n → ℝ) (cov : Fin n → Fin n → ℝ) :
    Fin n → ℝ :=
  if (∑ i, absContribution w cov i) = 0 then absContribution w cov
  else fun i => absContribution w cov i / ∑ i, absContribution w cov i

/-! ### `core/etf_analysis.py` -/

/-- Consecutive differences of the date index (`index.to_series().diff()`
with the leading `NaT` dropped). -/
def diffsOf : List ℕ → List ℕ
  | [] => []
  | [_] => []
  | a :: b :: rest => (b - a) :: diffsOf (b :: rest)

/-- pandas `Series.median`: middle element of the sorted values, or the mean
of the two middle elements for an even count (junk `0` on the empty list,
which the caller's `len(index) > 1` guard rules out). -/
def medianOf (xs : List ℕ) : ℚ :=
  let s := xs.insertionSort (· ≤ ·)
  if s.length % 2 = 1 then (s.getD (s.length / 2) 0 : ℚ)
  else ((s.getD (s.length / 2 - 1) 0 : ℚ) + (s.getD (s.length / 2) 0 : ℚ)) / 2

/-- `_annualization_factor`: 52 when the index has more than one date and the
median spacing of consecutive dates exceeds 4 days, else 252 (the Python
truthiness test `median_spacing and median_spacing > 4` coincides with
`median_spacing > 4` for the non-negative day spacings modelled here). -/
def annualizationFactor (dates : List ℕ) : ℕ :=
  if 1 < dates.length ∧ 4 < medianOf (diffsOf dates) then 52 else 252

/-- `pd.concat([etf, benchmark], axis=1, join="inner").dropna()`: the rows
whose date appears in both series and whose two values are both defined. -/
def innerJoinDropna (a b : List (ℕ × Option ℝ)) : List (ℕ × ℝ × ℝ) :=
  a.filterMap (fun da => match da.2, b.lookup da.1 with
    | some x, some (some y) => some (da.1, x, y)
    | _, _ => none)

/-- `core/etf_analysis.py` `compute_tracking_metrics`: `(NaN, NaN)` — i.e.
`(none, none)` — when the inner-joined, NaN-dropped table is empty, else the
annualized mean and standard deviation of the return differences.  The
function is total: no branch raises. -/
noncomputable def compute_tracking_metrics (etf_returns benchmark_returns : List (ℕ × Option ℝ)) :
    Option ℝ × Option ℝ :=
  let aligned := innerJoinDropna etf_returns benchmark_returns
  if aligned.length = 0 then (none, none)
  else
    (some (sampleMeanR (aligned.map (fun r => r.2.1 - r.2.2)) *
        (annualizationFactor (aligned.map (fun r => r.1)) : ℝ)),
      (sampleStd (aligned.map (fun r => r.2.1 - r.2.2))).map
        (fun s => s * Real.sqrt (annualizationFactor (aligned.map (fun r => r.1)))))

/-! ### Single-asset round trip (spec §8, claim C3) -/

/-- A one-column price dataframe over consecutive dates starting at `n`. -/
def singleAssetTableFrom (n : ℕ) : List ℚ → List (ℕ × List ℚ)
  | [] => []
  | p :: rest => (n, [p]) :: singleAssetTableFrom (n + 1) rest

/-- A one-column price dataframe over dates `0, 1, 2, …`. -/
def singleAssetTable (ps : List ℚ) : List (ℕ × List ℚ) :=
  singleAssetTableFrom 0 ps

/-- Extract the single asset's column from a dated table. -/
def firstColumn (rows : List (ℕ × List ℚ)) : List ℚ :=
  rows.map (fun r => r.2.getD 0 0)

/-- The round-trip composition of the claim:
`cumulative_returns(compute_returns(prices, "daily"))` for a single gap-free
asset (the empty list if `compute_returns` raises). -/
def roundTripGrowth (ps : List ℚ) : List ℚ :=
  match compute_returns (singleAssetTable ps) "daily" with
  | Except.ok rows => cumulative_returns (firstColumn rows)
  | Except.error _ => []

/-- Daily percentage-change series of a single price series (proof-side
restatement of the column of `pctChangeRows` on a one-column table). -/
def pctSeries : List ℚ → List ℚ
  | [] => []
  | [_] => []
  | p :: c :: rest => (c - p) / p :: pctSeries (c :: rest)

/-- Consecutive gross returns `c / a` of the series `a :: rest`. -/
def ratioSeriesAux : ℚ → List ℚ → List ℚ
  | _, [] => []
  | a, c :: rest => c / a :: ratioSeriesAux c rest

/-! ### `core/var.py`, `parametric_var` and its scipy normal-distribution
helpers -/

/-- scipy `norm.pdf`: the standard normal density
`(√(2π))⁻¹ · exp(−x²/2)`, i.e. the Gaussian density with mean 0 and
variance 1. -/
noncomputable def normalPDF : ℝ → ℝ :=
  ProbabilityTheory.gaussianPDFReal 0 1

/-- The standard normal cumulative distribution `Φ`: the cdf of the mean-0,
variance-1 Gaussian measure. -/
noncomputable def normalCDF : ℝ → ℝ :=
  fun x => ProbabilityTheory.cdf (ProbabilityTheory.gaussianReal 0 1) x

/-- scipy `norm.ppf`: the quantile function (inverse cdf) of the standard
normal distribution. -/
noncomputable def normPpf : ℝ → ℝ :=
  Function.invFun normalCDF

/-- `core/var.py` `parametric_var`: raises on an empty series; when the
sample deviation is `NaN` (a single observation) both results are `NaN`
(Python `NaN == 0` is false and `NaN` propagates through the formulas); when
it is zero both results collapse to `max(-μ, 0)`; otherwise the Gaussian
formulas `VaR = -(μ + Φ⁻¹(α)·σ)` and `CVaR = -(μ - σ·φ(Φ⁻¹(α))/α)`. -/
noncomputable def parametric_var (portfolio_ret : List ℝ) (alpha : ℝ) :
    Except String (Option ℝ × Option ℝ) :=
  if portfolio_ret.length = 0 then Except.error emptySeriesMsg
  else
    match sampleStd portfolio_ret with
    | none => Except.ok (none, none)
    | some sigma =>
      if sigma = 0 then
        Except.ok (some (max (-(sampleMeanR portfolio_ret)) 0),
          some (max (-(sampleMeanR portfolio_ret)) 0))
      else
        Except.ok
          (some (-(sampleMeanR portfolio_ret + normPpf alpha * sigma)),
            some (-(sampleMeanR portfolio_ret -
              sigma * normalPDF (normPpf alpha) / alpha)))

/-! ### Helper lemmas on scans -/

theorem scan1Aux_length {α : Type} (op : α → α → α) (xs : List α) :
    ∀ a : α, (scan1Aux op a xs).length = xs.length + 1 := by
  induction xs with
  | nil => intro a; rfl
  | cons x xs ih => intro a; simp [scan1Aux, ih]

theorem scan1Aux_getD {α : Type} (op : α → α → α) (d : α) (xs : List α) :
    ∀ (a : α) (t : ℕ), t ≤ xs.length →
      (scan1Aux op a xs).getD t d = List.foldl op a (xs.take t) := by
  induction xs with
  | nil =>
    intro a t ht
    have h0 : t = 0 := Nat.le_zero.mp ht
    subst h0; rfl
  | cons x xs ih =>
    intro a t ht
    cases t with
    | zero => rfl
    | succ t =>
      simpa [scan1Aux, List.take_succ_cons] using ih (op a x) t (by simpa using ht)

theorem foldl_mul_eq_mul_prod {M : Type} [Monoid M] (l : List M) :
    ∀ a : M, List.foldl (· * ·) a l = a * l.prod := by
  induction l with
  | nil => intro a; simp
  | cons x l ih => intro a; simp [ih, mul_assoc]

theorem cumprod_length {M : Type} [Mul M] (xs : List M) :
    (cumprod xs).length = xs.length := by
  cases xs with
  | nil => rfl
  | cons x xs => simp [cumprod, scan1, scan1Aux_length]

theorem cumprod_getD {M : Type} [Monoid M] (d : M) (xs : List M) (t : ℕ)
    (ht : t < xs.length) :
    (cumprod xs).getD t d = (xs.take (t + 1)).prod := by
  cases xs with
  | nil => simp at ht
  | cons x xs =>
    have ht' : t ≤ xs.length := by simpa using Nat.lt_succ_iff.mp (by simpa using ht)
    calc (cumprod (x :: xs)).getD t d = List.foldl (· * ·) x (xs.take t) :=
          scan1Aux_getD (· * ·) d xs x t ht'
    _ = x * (xs.take t).prod := foldl_mul_eq_mul_prod _ x
    _ = ((x :: xs).take (t + 1)).prod := by simp

/-! ### Claim C1 -/

/-- C1: refuted on the code — `backtest_portfolio` accepts the allocation
`{A: 60%, B: 30%}` without complaint and uses the weight vector `(0.6, 0.3)`
in the portfolio computation: the weights it uses sum to `0.9`, which is not
within `1e-9` of `1.0` (the function never normalizes or validates the
allocation it is given). -/
theorem backtest_weights_not_normalized :
    ((backtestWeights [("A", 60), ("B", 30)]).map (fun r => r.2)).sum = 9 / 10 ∧
      ¬ |((backtestWeights [("A", 60), ("B", 30)]).map (fun r => r.2)).sum - 1|
        ≤ 1 / 1000000000 := by
  norm_num [backtestWeights, abs_of_pos]

/-! ### Claim C2 -/

/-- C2, counterexample: for prices `A = [1, 2, 1]`, `B = [1, 1, 1]` and
weights `(1/2, 1/2)`, `compute_portfolio_value` returns `9/8` at the last
date, while the weighted sum of the rebased price series is `1` there: the
value curve is not the rebased weighted sum the claim describes. -/
theorem compute_portfolio_value_ne_rebased_sum :
    (compute_portfolio_value [[1, 1], [2, 1], [1, 1]] [1/2, 1/2]).getD 1 0 = 9/8 ∧
      specRebasedValue [[1, 1], [2, 1], [1, 1]] [1/2, 1/2] 2 = 1 ∧
      ((9 : ℚ)/8) ≠ 1 := by
  norm_num [compute_portfolio_value, pctTable, pctRow, dot, cumprod, scan1, scan1Aux,
    specRebasedValue]

/-! ### Claim C3 -/

/-- C3, counterexample: for the single gap-free asset with prices
`[100, 110]`, the first value of
`cumulative_returns(compute_returns(prices, "daily"))` is `11/10`, not `1.0`
(the running product starts at `1 + r₁`, not at the base value `1`). -/
theorem roundtrip_first_value_ne_one :
    (roundTripGrowth [100, 110]).getD 0 0 = 11/10 ∧ ((11 : ℚ)/10) ≠ 1 := by
  norm_num [roundTripGrowth, compute_returns, singleAssetTable, singleAssetTableFrom,
    pctChangeRows, pctRow, firstColumn, cumulative_returns, cumprod, scan1, scan1Aux]

/-! ### Claim C5 -/

/-- C5, counterexample: on the non-degenerate return series
`[0.01, 0.02, 0.03]` with `alpha = 0.05`, `historical_var` returns
`VaR = -0.011 < 0` and `CVaR = -0.01 < 0`: the values are not non-negative
(VaR is negative whenever the empirical lower tail of the returns is
positive). -/
theorem historical_var_negative_on_positive_returns :
    historical_var [1/100, 2/100, 3/100] (1/20) = Except.ok (-(11/1000), -(1/100)) ∧
      (-(11 : ℚ)/1000) < 0 ∧ (-(1 : ℚ)/100) < 0 := by
  norm_num [historical_var, quantile, quantilePos, sortedOf, List.insertionSort,
    List.orderedInsert, listMean, List.filter]

/-! ### Claim C7 -/

/-- C7: `compute_returns` raises the empty-input `ValueError` exactly when the
price table has zero rows; on a non-empty table it raises the
invalid-frequency `ValueError` exactly when the frequency is neither
`"daily"` nor `"weekly"`; in every other case it returns normally.  The
errors are returned in the `Except` value, i.e. handed to the immediate
caller, never swallowed. -/
theorem compute_returns_error_spec (prices : List (ℕ × List ℚ)) (freq : String) :
    (compute_returns prices freq = Except.error emptyPricesMsg ↔ prices = []) ∧
      (prices ≠ [] →
        (compute_returns prices freq = Except.error badFrequencyMsg ↔
          freq ≠ "daily" ∧ freq ≠ "weekly")) ∧
      (prices ≠ [] → (freq = "daily" ∨ freq = "weekly") →
        ∃ r, compute_returns prices freq = Except.ok r) := by
  have hmsg : emptyPricesMsg ≠ badFrequencyMsg := by decide
  unfold compute_returns
  by_cases hp : prices.length = 0
  · have hnil : prices = [] := List.length_eq_zero.mp hp
    subst hnil
    simp [hmsg]
  · have hne : prices ≠ [] := fun h => hp (by simp [h])
    by_cases hf : freq = "daily" ∨ freq = "weekly"
    · refine ⟨?_, ?_, ?_⟩
      · simp [hp, hf, hne]
      · intro _
        constructor
        · intro h
          simp [hp, hf] at h
        · rintro ⟨h1, h2⟩
          rcases hf with h | h
          · exact absurd h h1
          · exact absurd h h2
      · intro _ _
        refine ⟨pctChangeRows (if freq = "weekly" then resampleWeeklyLast prices
          else prices), ?_⟩
        simp [hp, hf]
    · refine ⟨?_, ?_, ?_⟩
      · simp [hp, hf, hne, hmsg.symm]
      · intro _
        push_neg at hf
        simp [hp, hf]
      · intro _ hvalid
        exact absurd hvalid hf

/-- C7, witness: on the one-row table with price 1 and frequency `"daily"`,
`compute_returns` returns normally. -/
theorem compute_returns_error_spec_witness :
    ([((0 : ℕ), [(1 : ℚ)])] ≠ ([] : List (ℕ × List ℚ))) ∧
      ∃ r, compute_returns [((0 : ℕ), [(1 : ℚ)])] "daily" = Except.ok r :=
  ⟨by simp, (compute_returns_error_spec [((0 : ℕ), [(1 : ℚ)])] "daily").2.2 (by simp)
    (Or.inl rfl)⟩

/-! ### Claim C8 -/

/-- C8: when the inner join on date of the two return series is empty after
dropping undefined rows, `compute_tracking_metrics` returns the pair of
`NaN`-equivalent undefined values `(none, none)`; it is a total function, so
no error is raised. -/
theorem compute_tracking_metrics_empty_join (e b : List (ℕ × Option ℝ))
    (h : innerJoinDropna e b = []) :
    compute_tracking_metrics e b = (none, none) := by
  unfold compute_tracking_metrics
  simp [h]

/-- C8, witness: two one-point series over disjoint dates have an empty inner
join, and the tracking metrics are both undefined. -/
theorem compute_tracking_metrics_empty_join_witness :
    innerJoinDropna [((0 : ℕ), some (1 : ℝ))] [((1 : ℕ), some (2 : ℝ))] = [] ∧
      compute_tracking_metrics [((0 : ℕ), some (1 : ℝ))] [((1 : ℕ), some (2 : ℝ))]
        = (none, none) := by
  have h : innerJoinDropna [((0 : ℕ), some (1 : ℝ))] [((1 : ℕ), some (2 : ℝ))] = [] := by
    simp [innerJoinDropna, List.lookup]
  exact ⟨h, compute_tracking_metrics_empty_join _ _ h⟩

/-! ### Quantile lemmas (claims C5 and C10) -/

theorem sortedOf_ne_nil {xs : List ℚ} (hne : xs ≠ []) : sortedOf xs ≠ [] := by
  intro h
  apply hne
  have hlen := (List.perm_insertionSort (· ≤ ·) xs).length_eq
  rw [sortedOf] at h
  rw [h] at hlen
  exact List.length_eq_zero.mp hlen.symm

theorem floor_pos_index_lt {xs : List ℚ} (alpha : ℚ) (hne : xs ≠ [])
    (h0 : 0 ≤ alpha) (h1 : alpha ≤ 1) :
    (Int.floor (quantilePos xs alpha)).toNat < (sortedOf xs).length := by
  have hsne := sortedOf_ne_nil hne
  have hn1 : 1 ≤ (sortedOf xs).length := List.length_pos.mpr hsne
  have hn1q : (0 : ℚ) ≤ ((sortedOf xs).length : ℚ) - 1 := by
    have : (1 : ℚ) ≤ ((sortedOf xs).length : ℚ) := by exact_mod_cast hn1
    linarith
  have hh0 : 0 ≤ quantilePos xs alpha := mul_nonneg h0 hn1q
  have hfl0 : 0 ≤ Int.floor (quantilePos xs alpha) := Int.le_floor.mpr (by exact_mod_cast hh0)
  have hhle : quantilePos xs alpha ≤ ((sortedOf xs).length : ℚ) - 1 := by
    have := mul_le_mul_of_nonneg_right h1 hn1q
    simpa [quantilePos] using this
  have hflq : (Int.floor (quantilePos xs alpha) : ℚ) ≤ ((sortedOf xs).length : ℚ) - 1 :=
    le_trans (Int.floor_le _) hhle
  have hfl : Int.floor (quantilePos xs alpha) ≤ ((sortedOf xs).length : ℤ) - 1 := by
    exact_mod_cast hflq
  omega

theorem exists_min_le_quantile (xs : List ℚ) (alpha : ℚ) (hne : xs ≠ [])
    (h0 : 0 ≤ alpha) (h1 : alpha ≤ 1) :
    ∃ x ∈ xs, (∀ y ∈ xs, x ≤ y) ∧ x ≤ quantile xs alpha := by
  have hperm : List.Perm (sortedOf xs) xs := List.perm_insertionSort (· ≤ ·) xs
  have hsorted : List.Sorted (· ≤ ·) (sortedOf xs) := List.sorted_insertionSort (· ≤ ·) xs
  have hsne := sortedOf_ne_nil hne
  obtain ⟨a, t, hat⟩ := List.exists_cons_of_ne_nil hsne
  have hmem_s : ∀ y ∈ sortedOf xs, a ≤ y := by
    intro y hy
    rw [hat] at hy hsorted
    rcases List.mem_cons.mp hy with rfl | hy
    · exact le_refl _
    · exact (List.sorted_cons.mp hsorted).1 y hy
  have hmin_mem : a ∈ xs := hperm.mem_iff.mp (by rw [hat]; exact List.mem_cons_self a t)
  have hi := floor_pos_index_lt alpha hne h0 h1
  have hgetD : (sortedOf xs).getD (Int.floor (quantilePos xs alpha)).toNat 0 =
      (sortedOf xs).get ⟨(Int.floor (quantilePos xs alpha)).toNat, hi⟩ :=
    List.getD_eq_getElem _ _ hi
  have ha_getD : a ≤ (sortedOf xs).getD (Int.floor (quantilePos xs alpha)).toNat 0 := by
    rw [hgetD]
    exact hmem_s _ (List.get_mem _ _ _)
  have hg0 : 0 ≤ quantilePos xs alpha - Int.floor (quantilePos xs alpha) := by
    have := Int.floor_le (quantilePos xs alpha)
    linarith
  refine ⟨a, hmin_mem, fun y hy => hmem_s y (hperm.mem_iff.mpr hy), ?_⟩
  unfold quantile
  split
  · rename_i y hy
    obtain ⟨hlt, hgy⟩ := List.get?_eq_some.mp hy
    have hle_y : (sortedOf xs).getD (Int.floor (quantilePos xs alpha)).toNat 0 ≤ y := by
      rw [hgetD, ← hgy]
      exact hsorted.rel_get_of_le (by exact_mod_cast Nat.le_succ _)
    nlinarith [mul_nonneg hg0 (sub_nonneg.mpr hle_y)]
  · exact ha_getD

/-! ### Claim C10 -/

/-- C10: for every non-empty return series and `alpha ∈ (0, 1)`, the
empirical quantile used by `historical_var` is at least the minimum return,
the filtered tail of returns at or below the quantile is non-empty, and
`historical_var` returns `(-quantile, -mean of that non-empty tail)` — both
values well-defined. -/
theorem historical_var_tail_nonempty (xs : List ℚ) (alpha : ℚ) (hne : xs ≠ [])
    (h0 : 0 < alpha) (h1 : alpha < 1) :
    (∃ x ∈ xs, (∀ y ∈ xs, x ≤ y) ∧ x ≤ quantile xs alpha) ∧
      xs.filter (fun x => decide (x ≤ quantile xs alpha)) ≠ [] ∧
      historical_var xs alpha =
        Except.ok (-(quantile xs alpha),
          -(listMean (xs.filter (fun x => decide (x ≤ quantile xs alpha))))) := by
  obtain ⟨x, hx, hxmin, hxle⟩ := exists_min_le_quantile xs alpha hne (le_of_lt h0) (le_of_lt h1)
  refine ⟨⟨x, hx, hxmin, hxle⟩, ?_, ?_⟩
  · intro hf
    have hmem : x ∈ xs.filter (fun x => decide (x ≤ quantile xs alpha)) :=
      List.mem_filter.mpr ⟨hx, by simpa using hxle⟩
    rw [hf] at hmem
    simp at hmem
  · have hlen : ¬ xs.length = 0 := fun h => hne (List.length_eq_zero.mp h)
    simp [historical_var, hlen]

/-- C10, witness: on the one-point series `[1]` with `alpha = 1/2`, the tail
at or below the quantile is non-empty. -/
theorem historical_var_tail_nonempty_witness :
    (([(1 : ℚ)] : List ℚ) ≠ []) ∧
      [(1 : ℚ)].filter (fun x => decide (x ≤ quantile [(1 : ℚ)] (1/2))) ≠ [] :=
  ⟨by simp,
    (historical_var_tail_nonempty [(1 : ℚ)] (1/2) (by simp) (by norm_num) (by norm_num)).2.1⟩

/-! ### Claim C5, amended -/

/-- `historical_var` half of the amended claim: the mean of the returns in
the tail is at most the quantile, so its negation dominates the negated
quantile. -/
theorem historical_cvar_ge (xs : List ℚ) (alpha : ℚ) (hne : xs ≠ [])
    (h0 : 0 < alpha) (h1 : alpha < 1) :
    ∀ v c, historical_var xs alpha = Except.ok (v, c) → v ≤ c := by
  intro v c hvc
  have hlen : ¬ xs.length = 0 := fun h => hne (List.length_eq_zero.mp h)
  obtain ⟨x, hx, hxmin, hxle⟩ := exists_min_le_quantile xs alpha hne (le_of_lt h0) (le_of_lt h1)
  simp [historical_var, hlen] at hvc
  obtain ⟨hv, hc⟩ := hvc
  have htail_ne : xs.filter (fun y => decide (y ≤ quantile xs alpha)) ≠ [] := by
    intro hf
    have hmem : x ∈ xs.filter (fun y => decide (y ≤ quantile xs alpha)) :=
      List.mem_filter.mpr ⟨hx, by simpa using hxle⟩
    rw [hf] at hmem
    simp at hmem
  have hall : ∀ y ∈ xs.filter (fun y => decide (y ≤ quantile xs alpha)),
      y ≤ quantile xs alpha := by
    intro y hy
    have := List.mem_filter.mp hy
    simpa using this.2
  have hsum := List.sum_le_card_nsmul _ _ hall
  have hlenpos : 0 < ((xs.filter (fun y => decide (y ≤ quantile xs alpha))).length : ℚ) := by
    have := List.length_pos.mpr htail_ne
    exact_mod_cast this
  have hmean : listMean (xs.filter (fun y => decide (y ≤ quantile xs alpha)))
      ≤ quantile xs alpha := by
    rw [listMean, div_le_iff₀ hlenpos]
    calc (xs.filter (fun y => decide (y ≤ quantile xs alpha))).sum
        ≤ (xs.filter (fun y => decide (y ≤ quantile xs alpha))).length • quantile xs alpha :=
          hsum
      _ = quantile xs alpha *
          ((xs.filter (fun y => decide (y ≤ quantile xs alpha))).length : ℚ) := by
          rw [nsmul_eq_mul]; ring
  rw [← hv, ← hc]
  linarith

section GaussianFacts

open MeasureTheory ProbabilityTheory Set Filter

theorem normalPDF_nonneg (x : ℝ) : 0 ≤ normalPDF x :=
  gaussianPDFReal_nonneg 0 1 x

theorem normalPDF_eq (x : ℝ) :
    normalPDF x = (Real.sqrt (2 * Real.pi))⁻¹ * Real.exp (-(x ^ 2 / 2)) := by
  rw [normalPDF, gaussianPDFReal]
  norm_num
  exact Or.inl (by ring)

theorem integrable_normalPDF : Integrable normalPDF :=
  integrable_gaussianPDFReal 0 1

theorem normalCDF_eq_integral (x : ℝ) :
    normalCDF x = ∫ t in Iic x, normalPDF t := by
  rw [normalCDF, cdf_eq_toReal, gaussianReal_apply_eq_integral 0 one_ne_zero,
    ENNReal.toReal_ofReal]
  · rfl
  · exact setIntegral_nonneg measurableSet_Iic fun t _ => normalPDF_nonneg t

theorem monotone_normalCDF : Monotone normalCDF :=
  fun _ _ h => monotone_cdf _ h

theorem tendsto_normalCDF_atBot : Tendsto normalCDF atBot (nhds 0) :=
  tendsto_cdf_atBot (gaussianReal 0 1)

theorem tendsto_normalCDF_atTop : Tendsto normalCDF atTop (nhds 1) :=
  tendsto_cdf_atTop (gaussianReal 0 1)

theorem continuous_normalCDF : Continuous normalCDF := by
  have h : normalCDF = fun b => (∫ t in Iic (0 : ℝ), normalPDF t) +
      ∫ t in (0 : ℝ)..b, normalPDF t := by
    funext b
    rw [normalCDF_eq_integral,
      ← intervalIntegral.integral_Iic_sub_Iic integrable_normalPDF.integrableOn
        integrable_normalPDF.integrableOn]
    ring
  rw [h]
  exact continuous_const.add (integrable_normalPDF.continuous_primitive 0)

theorem normalCDF_normPpf {alpha : ℝ} (h0 : 0 < alpha) (h1 : alpha < 1) :
    normalCDF (normPpf alpha) = alpha := by
  obtain ⟨a, ha⟩ : ∃ a, normalCDF a < alpha :=
    (tendsto_normalCDF_atBot.eventually_lt_const h0).exists
  obtain ⟨b, hb⟩ : ∃ b, alpha < normalCDF b :=
    (tendsto_normalCDF_atTop.eventually_const_lt h1).exists
  have hab : a ≤ b := by
    by_contra hcon
    push_neg at hcon
    have := monotone_normalCDF hcon.le
    linarith
  have hmem : alpha ∈ Set.image normalCDF (Icc a b) :=
    intermediate_value_Icc hab continuous_normalCDF.continuousOn ⟨ha.le, hb.le⟩
  obtain ⟨x, _, hx⟩ := hmem
  exact Function.invFun_eq ⟨x, hx⟩

theorem hasDerivAt_neg_normalPDF (t : ℝ) :
    HasDerivAt (fun t => -normalPDF t) (t * normalPDF t) t := by
  have hfun : (fun t : ℝ => -normalPDF t) =
      fun t => -((Real.sqrt (2 * Real.pi))⁻¹ * Real.exp (-(t ^ 2 / 2))) := by
    funext t
    rw [normalPDF_eq]
  rw [hfun, normalPDF_eq]
  have h1 : HasDerivAt (fun t : ℝ => -(t ^ 2 / 2)) (-t) t := by
    have := ((hasDerivAt_pow 2 t).div_const 2).neg
    simpa using this
  have h2 := (h1.exp.const_mul ((Real.sqrt (2 * Real.pi))⁻¹)).neg
  convert h2 using 1
  ring

theorem integrable_mul_normalPDF : Integrable (fun t : ℝ => t * normalPDF t) := by
  have hfun : (fun t : ℝ => t * normalPDF t) =
      fun t => (Real.sqrt (2 * Real.pi))⁻¹ * (t * Real.exp (-(1/2) * t ^ 2)) := by
    funext t
    rw [normalPDF_eq]
    have : Real.exp (-(t ^ 2 / 2)) = Real.exp (-(1/2) * t ^ 2) := by
      congr 1
      ring
    rw [this]
    ring
  rw [hfun]
  exact (integrable_mul_exp_neg_mul_sq (by norm_num : (0:ℝ) < 1/2)).const_mul _

theorem tendsto_neg_normalPDF_atBot :
    Tendsto (fun t : ℝ => -normalPDF t) atBot (nhds 0) := by
  have hfun : (fun t : ℝ => -normalPDF t) =
      fun t => -((Real.sqrt (2 * Real.pi))⁻¹ * Real.exp (-(t ^ 2 / 2))) := by
    funext t
    rw [normalPDF_eq]
  rw [hfun]
  have hsq : Tendsto (fun t : ℝ => t ^ 2) atBot atTop := by
    have hneg : Tendsto (fun t : ℝ => -t) atBot atTop := tendsto_neg_atBot_atTop
    have hpow : Tendsto (fun s : ℝ => s ^ 2) atTop atTop :=
      tendsto_pow_atTop (by norm_num)
    have := hpow.comp hneg
    refine this.congr fun t => ?_
    simp [neg_pow]
  have hexparg : Tendsto (fun t : ℝ => -(t ^ 2 / 2)) atBot atBot := by
    have := hsq.atTop_div_const (by norm_num : (0:ℝ) < 2)
    exact tendsto_neg_atTop_atBot.comp this
  have hexp : Tendsto (fun t : ℝ => Real.exp (-(t ^ 2 / 2))) atBot (nhds 0) :=
    Real.tendsto_exp_atBot.comp hexparg
  have := (hexp.const_mul ((Real.sqrt (2 * Real.pi))⁻¹)).neg
  simpa using this

theorem integral_Iic_mul_normalPDF (z : ℝ) :
    ∫ t in Iic z, t * normalPDF t = -normalPDF z := by
  have h := integral_Iic_of_hasDerivAt_of_tendsto
    (hasDerivAt_neg_normalPDF z).continuousAt.continuousWithinAt
    (fun x _ => hasDerivAt_neg_normalPDF x)
    integrable_mul_normalPDF.integrableOn
    tendsto_neg_normalPDF_atBot
  simpa using h

theorem mills_bound {z : ℝ} (hz : z < 0) : normalCDF z ≤ normalPDF z / (-z) := by
  have hcomp : ∀ t ∈ Iic z, normalPDF t ≤ (1/z) * (t * normalPDF t) := by
    intro t ht
    have hpdf := normalPDF_nonneg t
    have hz0 : z ≠ 0 := ne_of_lt hz
    have hfrac : 0 ≤ t / z - 1 := by
      have ht' : t - z ≤ 0 := by
        have := mem_Iic.mp ht
        linarith
      have hinv : (z : ℝ)⁻¹ ≤ 0 := inv_nonpos.mpr hz.le
      have hinv0 : 0 ≤ (t - z) * z⁻¹ := by nlinarith
      have heq : (t - z) * z⁻¹ = t / z - 1 := by
        rw [div_sub_one hz0]
        rw [div_eq_mul_inv]
      linarith [heq ▸ hinv0]
    have hmul : 0 ≤ (t / z - 1) * normalPDF t := mul_nonneg hfrac hpdf
    have : (1/z) * (t * normalPDF t) - normalPDF t = (t / z - 1) * normalPDF t := by
      field_simp
      ring
    linarith [this ▸ hmul]
  have hle := setIntegral_mono_on integrable_normalPDF.integrableOn
    (integrable_mul_normalPDF.const_mul (1/z)).integrableOn measurableSet_Iic hcomp
  rw [normalCDF_eq_integral]
  calc ∫ t in Iic z, normalPDF t ≤ ∫ t in Iic z, (1/z) * (t * normalPDF t) := hle
    _ = (1/z) * ∫ t in Iic z, t * normalPDF t := by rw [integral_mul_left]
    _ = (1/z) * (-normalPDF z) := by rw [integral_Iic_mul_normalPDF]
    _ = normalPDF z / (-z) := by
        rw [div_neg, ← neg_div]
        ring

theorem normPpf_pdf_div_add_nonneg {alpha : ℝ} (h0 : 0 < alpha) (h1 : alpha < 1) :
    0 ≤ normalPDF (normPpf alpha) / alpha + normPpf alpha := by
  have hz : normalCDF (normPpf alpha) = alpha := normalCDF_normPpf h0 h1
  rcases le_or_lt 0 (normPpf alpha) with hpos | hneg
  · have hnn : 0 ≤ normalPDF (normPpf alpha) / alpha :=
      div_nonneg (normalPDF_nonneg _) h0.le
    linarith
  · have hm := mills_bound hneg
    rw [hz] at hm
    have hzpos : 0 < -(normPpf alpha) := neg_pos.mpr hneg
    rw [le_div_iff₀ hzpos] at hm
    have hdiv : -(normPpf alpha) ≤ normalPDF (normPpf alpha) / alpha := by
      rw [le_div_iff₀ h0]
      nlinarith
    linarith

end GaussianFacts

theorem sampleStd_nonneg {xs : List ℝ} {s : ℝ} (h : sampleStd xs = some s) : 0 ≤ s := by
  rw [sampleStd] at h
  by_cases hl : xs.length < 2
  · rw [if_pos hl] at h
    exact absurd h (by simp)
  · rw [if_neg hl] at h
    have := Option.some.inj h
    rw [← this]
    exact Real.sqrt_nonneg _

/-- `parametric_var` half of the amended claim: whenever the two returned
values are defined, `CVaR ≥ VaR`; the gap is `σ · (φ(Φ⁻¹(α))/α + Φ⁻¹(α))`,
non-negative by the Mills-ratio bound for the standard normal. -/
theorem parametric_cvar_ge (ret : List ℝ) (alpha : ℝ) (h0 : 0 < alpha) (h1 : alpha < 1) :
    ∀ v c, parametric_var ret alpha = Except.ok (some v, some c) → v ≤ c := by
  intro v c h
  rw [parametric_var] at h
  by_cases hlen : ret.length = 0
  · rw [if_pos hlen] at h
    exact absurd h (by simp)
  · rw [if_neg hlen] at h
    cases hstd : sampleStd ret with
    | none =>
      rw [hstd] at h
      simp at h
    | some sigma =>
      rw [hstd] at h
      have h2 : (if sigma = 0 then
            Except.ok (some (max (-(sampleMeanR ret)) 0), some (max (-(sampleMeanR ret)) 0))
          else
            Except.ok
              (some (-(sampleMeanR ret + normPpf alpha * sigma)),
                some (-(sampleMeanR ret - sigma * normalPDF (normPpf alpha) / alpha)))) =
          Except.ok ((some v : Option ℝ), (some c : Option ℝ)) := h
      have hsig : 0 ≤ sigma := sampleStd_nonneg hstd
      by_cases hzero : sigma = 0
      · rw [if_pos hzero] at h2
        simp only [Except.ok.injEq, Prod.mk.injEq, Option.some.injEq] at h2
        obtain ⟨hv, hc⟩ := h2
        rw [← hv, ← hc]
      · rw [if_neg hzero] at h2
        simp only [Except.ok.injEq, Prod.mk.injEq, Option.some.injEq] at h2
        obtain ⟨hv, hc⟩ := h2
        have hkey := normPpf_pdf_div_add_nonneg h0 h1
        have hprod : 0 ≤ sigma * (normalPDF (normPpf alpha) / alpha + normPpf alpha) :=
          mul_nonneg hsig hkey
        have hexp : sigma * (normalPDF (normPpf alpha) / alpha + normPpf alpha) =
            sigma * normalPDF (normPpf alpha) / alpha + normPpf alpha * sigma := by
          ring
        rw [← hv, ← hc]
        rw [hexp] at hprod
        linarith

/-- C5, amended: for every non-empty return series and `alpha ∈ (0, 1)`,
`historical_var` returns a pair with `CVaR ≥ VaR`, and `parametric_var`
returns `CVaR ≥ VaR` whenever its two values are defined (sample deviation
not `NaN`; in the zero-deviation branch both values coincide); the
non-negativity of VaR and CVaR asserted by the original claim does not hold
in general. -/
theorem cvar_ge_var_both :
    (∀ (xs : List ℚ) (alpha : ℚ), xs ≠ [] → 0 < alpha → alpha < 1 →
      ∀ v c, historical_var xs alpha = Except.ok (v, c) → v ≤ c) ∧
      (∀ (ret : List ℝ) (alpha : ℝ), 0 < alpha → alpha < 1 →
        ∀ v c, parametric_var ret alpha = Except.ok (some v, some c) → v ≤ c) :=
  ⟨historical_cvar_ge, parametric_cvar_ge⟩

/-- C5, witness: on the series `[1]` with `alpha = 1/2`, `historical_var`
returns `(-1, -1)` with `CVaR ≥ VaR`; on the constant series `[0, 0]` the
zero-deviation branch of `parametric_var` returns `(0, 0)` with
`CVaR ≥ VaR`. -/
theorem cvar_ge_var_both_witness :
    (historical_var [(1 : ℚ)] (1/2) = Except.ok (-1, -1) ∧ ((-1 : ℚ) ≤ -1)) ∧
      (parametric_var [(0 : ℝ), 0] (1/2) = Except.ok (some 0, some 0) ∧ ((0 : ℝ) ≤ 0)) := by
  have h1 : historical_var [(1 : ℚ)] (1/2) = Except.ok (-1, -1) := by
    norm_num [historical_var, quantile, quantilePos, sortedOf, List.insertionSort,
      List.orderedInsert, listMean, List.filter]
  have hstd : sampleStd [(0 : ℝ), 0] = some 0 := by
    rw [sampleStd]
    norm_num [sampleMeanR]
  have h2 : parametric_var [(0 : ℝ), 0] (1/2) = Except.ok (some 0, some 0) := by
    rw [parametric_var, if_neg (by norm_num), hstd]
    norm_num [sampleMeanR]
  exact ⟨⟨h1, cvar_ge_var_both.1 [(1 : ℚ)] (1/2) (by simp) (by norm_num) (by norm_num)
      (-1) (-1) h1⟩,
    ⟨h2, cvar_ge_var_both.2 [(0 : ℝ), 0] (1/2) (by norm_num) (by norm_num) 0 0 h2⟩⟩

/-! ### Claim C2, amended -/

theorem dot_pctRow (w : List ℚ) :
    ∀ p c : List ℚ, p.length = w.length → c.length = w.length →
      (∀ x ∈ p, x ≠ 0) →
      dot w (pctRow p c) = dot w (ratioRow p c) - w.sum := by
  induction w with
  | nil =>
    intro p c hp hc _
    have hp0 : p = [] := List.length_eq_zero.mp hp
    have hc0 : c = [] := List.length_eq_zero.mp hc
    subst hp0; subst hc0
    simp [dot, pctRow, ratioRow]
  | cons a w ih =>
    intro p c hp hc hnz
    cases p with
    | nil => simp at hp
    | cons p0 p' =>
      cases c with
      | nil => simp at hc
      | cons c0 c' =>
        have hp' : p'.length = w.length := by simpa using hp
        have hc' : c'.length = w.length := by simpa using hc
        have hnz0 : p0 ≠ 0 := hnz p0 (List.mem_cons_self _ _)
        have hnz' : ∀ x ∈ p', x ≠ 0 := fun x hx => hnz x (List.mem_cons_of_mem _ hx)
        have hhead : a * ((c0 - p0) / p0) = a * (c0 / p0) - a := by
          field_simp
          ring
        simp only [dot, pctRow, ratioRow, List.zipWith, List.sum_cons] at *
        rw [hhead, ih p' c' hp' hc' hnz']
        ring

theorem map_one_add_dot (w : List ℚ) :
    ∀ prices : List (List ℚ), (∀ r ∈ prices, r.length = w.length) →
      (∀ r ∈ prices, ∀ x ∈ r, x ≠ 0) → w.sum = 1 →
      (pctTable prices).map (fun r => 1 + dot w r) =
        (ratioTable prices).map (fun r => dot w r) := by
  intro prices
  induction prices with
  | nil => intro _ _ _; simp [pctTable, ratioTable]
  | cons p rest ih =>
    intro hrect hnz hw
    cases rest with
    | nil => simp [pctTable, ratioTable]
    | cons c rest2 =>
      have hp : p.length = w.length := hrect p (List.mem_cons_self _ _)
      have hc : c.length = w.length := hrect c (List.mem_cons_of_mem _ (List.mem_cons_self _ _))
      have hpz : ∀ x ∈ p, x ≠ 0 := hnz p (List.mem_cons_self _ _)
      have hrect' : ∀ r ∈ c :: rest2, r.length = w.length :=
        fun r hr => hrect r (List.mem_cons_of_mem _ hr)
      have hnz' : ∀ r ∈ c :: rest2, ∀ x ∈ r, x ≠ 0 :=
        fun r hr => hnz r (List.mem_cons_of_mem _ hr)
      simp only [pctTable, ratioTable, List.map_cons]
      rw [dot_pctRow w p c hp hc hpz, hw, ih hrect' hnz' hw]
      norm_num

theorem ratioTable_length : ∀ prices : List (List ℚ),
    (ratioTable prices).length = (pctTable prices).length := by
  intro prices
  induction prices with
  | nil => rfl
  | cons p rest ih =>
    cases rest with
    | nil => rfl
    | cons c rest2 => simpa [pctTable, ratioTable] using ih

/-- C2, amended: the value curve of `compute_portfolio_value` is the
daily-rebalanced one — for a rectangular table of non-zero prices and weights
summing to 1, the value at the `t`-th return date equals the product, over
the first `t + 1` return dates, of the weighted sums of gross returns
`Σ_i w_i · p_i[s] / p_i[s-1]` (not the buy-and-hold rebased weighted sum of
the original claim). -/
theorem compute_portfolio_value_rebalanced_product (prices : List (List ℚ)) (w : List ℚ)
    (hrect : ∀ r ∈ prices, r.length = w.length)
    (hnz : ∀ r ∈ prices, ∀ x ∈ r, x ≠ 0)
    (hw : w.sum = 1) (t : ℕ) (ht : t < (pctTable prices).length) :
    (compute_portfolio_value prices w).getD t 0 =
      (((ratioTable prices).map (fun r => dot w r)).take (t + 1)).prod := by
  unfold compute_portfolio_value
  rw [map_one_add_dot w prices hrect hnz hw]
  exact cumprod_getD 0 _ t (by simpa [ratioTable_length] using ht)

/-- C2, witness: two assets with prices `[1, 1]` then `[2, 1]` and weights
`(1/2, 1/2)`: the hypotheses hold and the value at the single return date is
the weighted sum of gross returns. -/
theorem compute_portfolio_value_rebalanced_product_witness :
    (([(1 : ℚ)/2, 1/2] : List ℚ).sum = 1) ∧
      (compute_portfolio_value [[1, 1], [2, 1]] [1/2, 1/2]).getD 0 0 =
        (((ratioTable [[1, 1], [2, 1]]).map (fun r => dot [(1 : ℚ)/2, 1/2] r)).take 1).prod := by
  constructor
  · norm_num
  · exact compute_portfolio_value_rebalanced_product [[1, 1], [2, 1]] [1/2, 1/2]
      (by intro r hr; fin_cases hr <;> rfl)
      (by intro r hr; fin_cases hr <;> (intro x hx; fin_cases hx <;> norm_num))
      (by norm_num) 0 (by norm_num [pctTable, pctRow])

/-! ### Claim C3, amended -/

theorem singleAssetTableFrom_length : ∀ (ps : List ℚ) (n : ℕ),
    (singleAssetTableFrom n ps).length = ps.length := by
  intro ps
  induction ps with
  | nil => intro n; rfl
  | cons p rest ih => intro n; simp [singleAssetTableFrom, ih]

theorem firstColumn_pctChangeRows : ∀ (ps : List ℚ) (n : ℕ),
    firstColumn (pctChangeRows (singleAssetTableFrom n ps)) = pctSeries ps := by
  intro ps
  induction ps with
  | nil => intro n; rfl
  | cons p rest ih =>
    intro n
    cases rest with
    | nil => rfl
    | cons c rest2 =>
      have htail := ih (n + 1)
      simp only [singleAssetTableFrom, pctChangeRows, pctSeries, firstColumn,
        List.map_cons, List.cons.injEq] at htail ⊢
      refine ⟨?_, htail⟩
      simp [pctRow]

theorem map_one_add_pctSeries : ∀ (rest : List ℚ) (a : ℚ), a ≠ 0 →
    (∀ x ∈ rest, x ≠ 0) →
    (pctSeries (a :: rest)).map (fun r => 1 + r) = ratioSeriesAux a rest := by
  intro rest
  induction rest with
  | nil => intro a _ _; rfl
  | cons c rest2 ih =>
    intro a ha hnz
    have hc : c ≠ 0 := hnz c (List.mem_cons_self _ _)
    have hnz2 : ∀ x ∈ rest2, x ≠ 0 := fun x hx => hnz x (List.mem_cons_of_mem _ hx)
    simp only [pctSeries, ratioSeriesAux, List.map_cons, List.cons.injEq]
    refine ⟨?_, ih c hc hnz2⟩
    field_simp

theorem ratioSeriesAux_length : ∀ (rest : List ℚ) (a : ℚ),
    (ratioSeriesAux a rest).length = rest.length := by
  intro rest
  induction rest with
  | nil => intro a; rfl
  | cons c rest2 ih => intro a; simp [ratioSeriesAux, ih]

theorem ratioSeriesAux_take_prod : ∀ (rest : List ℚ) (a : ℚ) (k : ℕ), a ≠ 0 →
    (∀ x ∈ rest, x ≠ 0) → k < rest.length →
    ((ratioSeriesAux a rest).take (k + 1)).prod = rest.getD k 0 / a := by
  intro rest
  induction rest with
  | nil => intro a k _ _ hk; simp at hk
  | cons c rest2 ih =>
    intro a k ha hnz hk
    have hc : c ≠ 0 := hnz c (List.mem_cons_self _ _)
    have hnz2 : ∀ x ∈ rest2, x ≠ 0 := fun x hx => hnz x (List.mem_cons_of_mem _ hx)
    cases k with
    | zero => simp [ratioSeriesAux]
    | succ k =>
      have hk2 : k < rest2.length := by simpa using hk
      simp only [ratioSeriesAux, List.take_succ_cons, List.prod_cons, List.getD_cons_succ]
      rw [ih c k hc hnz2 hk2]
      field_simp
      ring

/-- C3, amended: for a single gap-free asset with non-zero prices and at
least two rows, the growth series
`cumulative_returns(compute_returns(prices, "daily"))` has one entry per
return date, and its entry for original date `k + 1` equals
`price[k+1] / price[0]`; in particular its first value is
`price[1] / price[0]`, not `1.0`. -/
theorem roundtrip_growth_eq_price_ratio (ps : List ℚ) (hnz : ∀ p ∈ ps, p ≠ 0)
    (k : ℕ) (hk : k + 1 < ps.length) :
    (roundTripGrowth ps).getD k 0 = ps.getD (k + 1) 0 / ps.getD 0 0 := by
  cases ps with
  | nil => simp at hk
  | cons a rest =>
    have ha : a ≠ 0 := hnz a (List.mem_cons_self _ _)
    have hnzr : ∀ x ∈ rest, x ≠ 0 := fun x hx => hnz x (List.mem_cons_of_mem _ hx)
    have hlen : ¬ (singleAssetTable (a :: rest)).length = 0 := by
      rw [singleAssetTable, singleAssetTableFrom_length]
      simp
    have hcr : compute_returns (singleAssetTable (a :: rest)) "daily" =
        Except.ok (pctChangeRows (singleAssetTable (a :: rest))) := by
      have hdw : ("daily" : String) ≠ "weekly" := by decide
      simp [compute_returns, hlen, hdw]
    have hrtg : roundTripGrowth (a :: rest) = cumprod (ratioSeriesAux a rest) := by
      unfold roundTripGrowth
      rw [hcr]
      show cumulative_returns (firstColumn (pctChangeRows (singleAssetTable (a :: rest)))) = _
      rw [singleAssetTable, firstColumn_pctChangeRows]
      unfold cumulative_returns
      rw [map_one_add_pctSeries rest a ha hnzr]
    rw [hrtg]
    have hk2 : k < rest.length := by simpa using hk
    have hcg := cumprod_getD 0 (ratioSeriesAux a rest) k
      (by rw [ratioSeriesAux_length]; exact hk2)
    rw [hcg, ratioSeriesAux_take_prod rest a k ha hnzr hk2]
    simp

/-- C3, witness: for prices `[100, 110, 121]` the growth value at original
date 2 is `121 / 100`. -/
theorem roundtrip_growth_eq_price_ratio_witness :
    ((100 : ℚ) ≠ 0) ∧ (roundTripGrowth [100, 110, 121]).getD 1 0 = (121 : ℚ) / 100 := by
  constructor
  · norm_num
  · have h := roundtrip_growth_eq_price_ratio [100, 110, 121]
      (by intro p hp; fin_cases hp <;> norm_num) 1 (by norm_num)
    simpa using h

/-! ### Claim C6 -/

/-- C6: `volatility_contributions` returns percentage contributions summing
to exactly 1 whenever the portfolio variance `wᵀ Σ w` is strictly positive
(the absolute contributions sum to `√(wᵀ Σ w) ≠ 0` and the percentage column
divides by that sum), and returns all-zero absolute and percentage
contributions whenever the portfolio variance is `≤ 0`. -/
theorem volatility_contributions_pct_sum {n : ℕ} (w : Fin n → ℝ) (cov : Fin n → Fin n → ℝ) :
    (0 < portfolioVariance w cov → ∑ i, pctContribution w cov i = 1) ∧
      (portfolioVariance w cov ≤ 0 →
        (∀ i, absContribution w cov i = 0) ∧ ∀ i, pctContribution w cov i = 0) := by
  constructor
  · intro hv
    have hnle : ¬ portfolioVariance w cov ≤ 0 := not_le.mpr hv
    have habs : absContribution w cov =
        fun i => w i * (∑ j, cov i j * w j) / Real.sqrt (portfolioVariance w cov) := by
      rw [absContribution, if_neg hnle]
    have hsqrt_pos : 0 < Real.sqrt (portfolioVariance w cov) := Real.sqrt_pos.mpr hv
    have hsum : (∑ i, absContribution w cov i) = Real.sqrt (portfolioVariance w cov) := by
      rw [habs]
      rw [← Finset.sum_div]
      rw [show (∑ i, w i * (∑ j, cov i j * w j)) = portfolioVariance w cov from rfl]
      exact Real.div_sqrt
    have hsumne : (∑ i, absContribution w cov i) ≠ 0 := by
      rw [hsum]
      exact ne_of_gt hsqrt_pos
    rw [pctContribution, if_neg hsumne]
    rw [← Finset.sum_div]
    exact div_self hsumne
  · intro hv
    have habs : absContribution w cov = fun _ => 0 := by
      rw [absContribution, if_pos hv]
    have hz : ∀ i, absContribution w cov i = 0 := fun i => by rw [habs]
    refine ⟨hz, ?_⟩
    have hsum0 : (∑ i, absContribution w cov i) = 0 := by simp [hz]
    intro i
    rw [pctContribution, if_pos hsum0]
    exact hz i

/-- C6, witness: the single-asset portfolio with weight 1 and covariance 1
has variance `1 > 0` and percentage contributions summing to 1. -/
theorem volatility_contributions_pct_sum_witness :
    ((0 : ℝ) < portfolioVariance (fun _ : Fin 1 => (1 : ℝ)) (fun _ _ => 1)) ∧
      ∑ i, pctContribution (fun _ : Fin 1 => (1 : ℝ)) (fun _ _ => 1) i = 1 := by
  have hv : (0 : ℝ) < portfolioVariance (fun _ : Fin 1 => (1 : ℝ)) (fun _ _ => 1) := by
    norm_num [portfolioVariance, Fin.sum_univ_one]
  exact ⟨hv, (volatility_contributions_pct_sum _ _).1 hv⟩

/-! ### Claims C4 and C9: `performance_metrics` -/

theorem scan1Aux_all_eq {α : Type} (op : α → α → α) (a : α) (ha : op a a = a) :
    ∀ l : List α, (∀ y ∈ l, y = a) → scan1Aux op a l = List.replicate (l.length + 1) a := by
  intro l
  induction l with
  | nil => intro _; simp [scan1Aux, List.replicate]
  | cons x xs ih =>
    intro hl
    have hx : x = a := hl x (List.mem_cons_self _ _)
    have hxs : ∀ y ∈ xs, y = a := fun y hy => hl y (List.mem_cons_of_mem _ hy)
    rw [scan1Aux, hx, ha, ih hxs]
    simp [List.replicate]

theorem zipWith_replicate_same {α β : Type} (f : α → α → β) (a b : α) :
    ∀ n : ℕ, List.zipWith f (List.replicate n a) (List.replicate n b) =
      List.replicate n (f a b) := by
  intro n
  induction n with
  | zero => rfl
  | succ n ih => simp [List.replicate, ih]

theorem foldl_min_replicate_zero : ∀ k : ℕ, List.foldl min (0 : ℝ) (List.replicate k 0) = 0 := by
  intro k
  induction k with
  | zero => rfl
  | succ k ih => simpa [List.replicate] using ih

theorem drawdownOf_all_zero (ret : List ℝ) (hne : ret ≠ []) (hall : ∀ x ∈ ret, x = 0) :
    drawdownOf ret = List.replicate ret.length 0 := by
  obtain ⟨r0, rest, hrr⟩ := List.exists_cons_of_ne_nil hne
  subst hrr
  have h10 : (1 : ℝ) + r0 = 1 := by rw [hall r0 (List.mem_cons_self _ _)]; norm_num
  have hrest : ∀ y ∈ rest.map (fun r => 1 + r), y = 1 := by
    intro y hy
    obtain ⟨x, hx, rfl⟩ := List.mem_map.mp hy
    rw [hall x (List.mem_cons_of_mem _ hx)]
    norm_num
  have hcum : cumprod ((r0 :: rest).map (fun r => 1 + r)) =
      List.replicate (rest.length + 1) 1 := by
    simp only [List.map_cons, cumprod, scan1, h10]
    simpa using scan1Aux_all_eq (· * ·) 1 (one_mul 1) _ hrest
  have hmax : cummax (List.replicate (rest.length + 1) (1 : ℝ)) =
      List.replicate (rest.length + 1) 1 := by
    cases hm : List.replicate (rest.length + 1) (1 : ℝ) with
    | nil => rfl
    | cons y ys =>
      have hy : y = 1 ∧ ys = List.replicate rest.length 1 := by
        rw [List.replicate] at hm
        exact ⟨(List.cons.injEq _ _ _ _ ▸ hm).1.symm, (List.cons.injEq _ _ _ _ ▸ hm).2.symm⟩
      rw [cummax, scan1, hy.1, hy.2,
        scan1Aux_all_eq max 1 (max_self 1) _ (fun y hy => List.eq_of_mem_replicate hy)]
      simp [List.replicate]
  rw [drawdownOf, hcum, hmax, zipWith_replicate_same]
  norm_num

/-- C4, amended: on every return series with at least two observations, all
zero, `performance_metrics` with risk-free rate 0 returns CAGR = 0,
annualized volatility = 0, Sharpe = 0, Sortino = 0 and max drawdown = 0 (two
observations are needed for the sample standard deviation to be defined). -/
theorem performance_metrics_all_zero (ret : List ℝ) (py : ℕ)
    (hlen : 2 ≤ ret.length) (hall : ∀ x ∈ ret, x = 0) :
    performance_metrics ret 0 py =
      Except.ok { cagr := 0, annualVolatility := some 0, sharpe := 0, sortino := 0,
                  maxDrawdown := 0 } := by
  have hne : ret ≠ [] := by
    intro h
    rw [h] at hlen
    simp at hlen
  have hprod : (ret.map (fun r => 1 + r)).prod = 1 := by
    apply List.prod_eq_one
    intro y hy
    obtain ⟨x, hx, rfl⟩ := List.mem_map.mp hy
    rw [hall x hx]
    norm_num
  have hcagr : cagrOf ret py = 0 := by
    rw [cagrOf, hprod]
    norm_num [Real.one_rpow]
  have hsumz : ret.sum = 0 := List.sum_eq_zero hall
  have hmean : sampleMeanR ret = 0 := by rw [sampleMeanR, hsumz, zero_div]
  have hsq : (ret.map (fun x => (x - sampleMeanR ret) ^ 2)).sum = 0 := by
    apply List.sum_eq_zero
    intro y hy
    obtain ⟨x, hx, rfl⟩ := List.mem_map.mp hy
    rw [hall x hx, hmean]
    norm_num
  have hstd : sampleStd ret = some 0 := by
    rw [sampleStd, if_neg (by omega), hsq, zero_div, Real.sqrt_zero]
  have hvol : annualVolOf ret py = some 0 := by
    rw [annualVolOf, hstd]
    simp
  have hfilt : ret.filter (fun x => decide (x < 0)) = [] := by
    apply List.filter_eq_nil_iff.mpr
    intro x hx
    simp [hall x hx]
  have hdown : downsideVolOf ret py = none := by
    rw [downsideVolOf, hfilt]
    rfl
  have hsharpe : guardedRatio (cagrOf ret py - 0) (annualVolOf ret py) = 0 := by
    rw [hvol, guardedRatio, if_neg (lt_irrefl 0)]
  have hsortino : guardedRatio (cagrOf ret py - 0) (downsideVolOf ret py) = 0 := by
    rw [hdown]
    rfl
  have hdd : listMin (drawdownOf ret) = 0 := by
    rw [drawdownOf_all_zero ret hne hall]
    obtain ⟨r0, rest, hrr⟩ := List.exists_cons_of_ne_nil hne
    subst hrr
    simp only [List.length_cons, List.replicate]
    rw [listMin]
    exact foldl_min_replicate_zero _
  rw [performance_metrics, if_neg (by omega)]
  rw [hsharpe, hsortino, hcagr, hvol, hdd]

/-- C4, witness: the all-zero two-observation series realizes the amended
claim with every metric equal to zero. -/
theorem performance_metrics_all_zero_witness :
    (2 ≤ ([(0 : ℝ), 0] : List ℝ).length) ∧
      performance_metrics [(0 : ℝ), 0] 0 252 =
        Except.ok { cagr := 0, annualVolatility := some 0, sharpe := 0, sortino := 0,
                    maxDrawdown := 0 } :=
  ⟨by norm_num, performance_metrics_all_zero [0, 0] 252 (by norm_num)
    (by intro x hx; fin_cases hx <;> rfl)⟩

/-- C4, counterexample: on the non-empty all-zero series with a single
observation, the annualized volatility reported by `performance_metrics` is
`NaN` (`none`) — the sample standard deviation of one point is undefined —
and not the `0` the claim asserts; the other four metrics are 0. -/
theorem performance_metrics_single_zero_vol_nan :
    performance_metrics [(0 : ℝ)] 0 252 =
      Except.ok { cagr := 0, annualVolatility := none, sharpe := 0, sortino := 0,
                  maxDrawdown := 0 } ∧ (none : Option ℝ) ≠ some (0 : ℝ) := by
  constructor
  · have hstd : sampleStd [(0 : ℝ)] = none := by
      rw [sampleStd]
      norm_num
    have hvol : annualVolOf [(0 : ℝ)] 252 = none := by
      rw [annualVolOf, hstd]
      rfl
    have hfilt : ([(0 : ℝ)]).filter (fun y => decide (y < 0)) = [] := by
      apply List.filter_eq_nil_iff.mpr
      intro y hy
      fin_cases hy
      simp
    have hdown : downsideVolOf [(0 : ℝ)] 252 = none := by
      rw [downsideVolOf, hfilt]
      rfl
    have hcagr : cagrOf [(0 : ℝ)] 252 = 0 := by
      rw [cagrOf]
      norm_num [Real.one_rpow]
    have hdd : listMin (drawdownOf [(0 : ℝ)]) = 0 := by
      rw [drawdownOf]
      norm_num [cumprod, cummax, scan1, scan1Aux, listMin]
    have hsharpe : guardedRatio (cagrOf [(0 : ℝ)] 252 - 0) (annualVolOf [(0 : ℝ)] 252) = 0 := by
      rw [hvol]
      rfl
    have hsortino : guardedRatio (cagrOf [(0 : ℝ)] 252 - 0) (downsideVolOf [(0 : ℝ)] 252) = 0 := by
      rw [hdown]
      rfl
    rw [performance_metrics, if_neg (by norm_num)]
    rw [hsharpe, hsortino, hcagr, hvol, hdd]
  · simp

/-- C9: on any one-observation return series `performance_metrics` does not
raise: it returns a report whose Sharpe and Sortino are 0 (the positivity
guards reject the undefined sample deviation) and whose annualized
volatility is `NaN` (`none`), not zero. -/
theorem performance_metrics_single_obs (x rf : ℝ) (py : ℕ) :
    ∃ m, performance_metrics [x] rf py = Except.ok m ∧
      m.annualVolatility = none ∧ m.sharpe = 0 ∧ m.sortino = 0 := by
  have hstd : sampleStd [x] = none := by
    rw [sampleStd]
    norm_num
  have hvol : annualVolOf [x] py = none := by
    rw [annualVolOf, hstd]
    rfl
  have hdl : (List.filter (fun y => decide (y < 0)) [x]).length < 2 :=
    lt_of_le_of_lt (List.length_filter_le _ _) (by norm_num)
  have hdstd : sampleStd ([x].filter (fun y => decide (y < 0))) = none := by
    rw [sampleStd, if_pos hdl]
  have hdown : downsideVolOf [x] py = none := by
    rw [downsideVolOf, hdstd]
    rfl
  refine ⟨{ cagr := cagrOf [x] py, annualVolatility := annualVolOf [x] py,
            sharpe := guardedRatio (cagrOf [x] py - rf) (annualVolOf [x] py),
            sortino := guardedRatio (cagrOf [x] py - rf) (downsideVolOf [x] py),
            maxDrawdown := listMin (drawdownOf [x]) }, ?_, ?_, ?_, ?_⟩
  · rw [performance_metrics, if_neg (by norm_num)]
  · show annualVolOf [x] py = none
    exact hvol
  · show guardedRatio (cagrOf [x] py - rf) (annualVolOf [x] py) = 0
    rw [hvol]
    rfl
  · show guardedRatio (cagrOf [x] py - rf) (downsideVolOf [x] py) = 0
    rw [hdown]
    rfl
